import Mathlib

/-!
Verification of the codeowners-filter repository's core algorithms.

JavaScript strings are modelled as `List Char`; JS `Record<string, T>`
objects are modelled as insertion-ordered association lists
`List (List Char × T)` (lookup finds the first matching key; adding a new
key appends at the end, matching JS object key-enumeration order).
File-system access (`fs.existsSync`, `fs.statSync`, `fs.readdirSync`) is
modelled by an explicit `FileSystem` record of total functions whose
`Option` results model thrown exceptions (`none` = the call throws).
-/

namespace Codeowners

/-- JS whitespace characters relevant to `trim` and `split(/\s+/)`
(space, tab, carriage return, newline, vertical tab, form feed). -/
def isWsChar (c : Char) : Bool :=
  c == ' ' || c == '\t' || c == '\r' || c == '\n' || c == '\x0b' || c == '\x0c'

/-- Model of `String.prototype.trim`. -/
def trimL (l : List Char) : List Char :=
  ((l.dropWhile isWsChar).reverse.dropWhile isWsChar).reverse

/-- Model of `String.prototype.split(sep)` for a one-character separator:
splits at every occurrence of `sep`, keeping empty pieces
(`"a//b".split("/") = ["a", "", "b"]`, `"".split("/") = [""]`). -/
def splitOnChar (sep : Char) : List Char → List (List Char)
  | [] => [[]]
  | c :: cs =>
    match splitOnChar sep cs with
    | [] => if c == sep then [[], []] else [[c]]
    | s :: rest => if c == sep then [] :: s :: rest else (c :: s) :: rest

/-- Single pass collecting maximal non-whitespace runs; `cur` is the
(reversed) run currently being read. -/
def splitWsAux : List Char → List Char → List (List Char)
  | cur, [] => if cur = [] then [] else [cur.reverse]
  | cur, c :: cs =>
    if isWsChar c then
      if cur = [] then splitWsAux [] cs else cur.reverse :: splitWsAux [] cs
    else splitWsAux (c :: cur) cs

/-- Model of `String.prototype.split(/\s+/)` applied to an already-trimmed
string (the only way the source uses it): the maximal non-whitespace runs. -/
def splitWsRuns (l : List Char) : List (List Char) := splitWsAux [] l

/-- `splitOnChar` never returns the empty list. -/
theorem splitOnChar_ne_nil (sep : Char) (l : List Char) :
    splitOnChar sep l ≠ [] := by
  cases l with
  | nil => simp [splitOnChar]
  | cons c cs =>
    simp only [splitOnChar]
    split <;> split <;> simp

/--
The specificity ranker (`calculateSpecificity` in the source):
`segments * 100`, `+50` when the pattern has no `*`, `+25` when it contains
a `.` and does not end with `/`, where `segments` is
`pattern.split("/").filter(Boolean).length`.
-/
def calculateSpecificity (pattern : List Char) : Nat :=
  let segments := ((splitOnChar '/' pattern).filter (fun s => !s.isEmpty)).length
  let s := segments * 100
  let s := if !pattern.contains '*' then s + 50 else s
  let s := if pattern.contains '.' && !(['/'].isSuffixOf pattern) then s + 25 else s
  s

/-- Independent (spec-side) count of the non-empty `/`-delimited segments of
a pattern: a recursive scan that counts each maximal run of non-`/`
characters.  The flag records whether the scan is currently inside a run. -/
def countSegmentsAux (inSeg : Bool) : List Char → Nat
  | [] => 0
  | c :: cs =>
    if c = '/' then countSegmentsAux false cs
    else (if inSeg then 0 else 1) + countSegmentsAux true cs

/-- Spec-side segment count: number of non-empty `/`-delimited segments. -/
def countSegments (l : List Char) : Nat := countSegmentsAux false l

theorem countSegments_eq_aux (cs : List Char) :
    ((splitOnChar '/' cs).filter (fun s => !s.isEmpty)).length = countSegmentsAux false cs ∧
    ((splitOnChar '/' cs).tail.filter (fun s => !s.isEmpty)).length = countSegmentsAux true cs := by
  induction cs with
  | nil => simp [splitOnChar, countSegmentsAux]
  | cons c cs ih =>
    obtain ⟨h, t, hht⟩ : ∃ h t, splitOnChar '/' cs = h :: t := by
      rcases e : splitOnChar '/' cs with _ | ⟨h, t⟩
      · exact absurd e (splitOnChar_ne_nil _ _)
      · exact ⟨h, t, rfl⟩
    rw [hht] at ih
    have h2 : (t.filter (fun s => !s.isEmpty)).length = countSegmentsAux true cs := by
      simpa using ih.2
    by_cases hc : c = '/'
    · subst hc
      have e : splitOnChar '/' ('/' :: cs) = [] :: h :: t := by
        simp [splitOnChar, hht]
      rw [e]
      have h1 : ((h :: t).filter (fun s => !s.isEmpty)).length = countSegmentsAux false cs := ih.1
      refine ⟨?_, ?_⟩ <;> simpa [countSegmentsAux] using h1
    · have hcb : (c == '/') = false := by simpa using hc
      have e : splitOnChar '/' (c :: cs) = (c :: h) :: t := by
        simp [splitOnChar, hht, hcb]
      rw [e]
      have ca1 : countSegmentsAux false (c :: cs) = 1 + countSegmentsAux true cs := by
        simp [countSegmentsAux, hc]
      have ca2 : countSegmentsAux true (c :: cs) = countSegmentsAux true cs := by
        simp [countSegmentsAux, hc]
      refine ⟨?_, ?_⟩
      · rw [ca1]
        simp [h2]
        omega
      · rw [ca2, List.tail_cons, h2]

/-- The segment count used by `calculateSpecificity` equals the spec-side
count of non-empty `/`-delimited segments. -/
theorem calculateSpecificity_segments (p : List Char) :
    ((splitOnChar '/' p).filter (fun s => !s.isEmpty)).length = countSegments p :=
  (countSegments_eq_aux p).1

/--
C5: the specificity function is a pure function of the pattern text and
returns exactly `segmentCount * 100` (non-empty `/`-delimited segments)
plus 50 when the pattern contains no `*`, plus 25 when it contains a `.`
and does not end with `/`; and `calculateSpecificity "src/sub" >
calculateSpecificity "src"`.
-/
theorem specificity_formula_and_order :
    (∀ p : List Char,
      calculateSpecificity p =
        countSegments p * 100 +
          (if p.contains '*' then 0 else 50) +
          (if p.contains '.' ∧ ¬ (['/'].isSuffixOf p) then 25 else 0)) ∧
    calculateSpecificity "src/sub".toList > calculateSpecificity "src".toList := by
  constructor
  · intro p
    unfold calculateSpecificity
    rw [calculateSpecificity_segments]
    rcases hstar : p.contains '*' <;> rcases hdot : p.contains '.' <;>
      rcases hsuf : ['/'].isSuffixOf p <;> simp [hstar, hdot, hsuf]
  · decide

/-! ### Pattern matchers

Two matchers coexist in the source: `matchesGlobPattern` (regex
translation, in the codeowner-tree file) and the manual prefix-check
cases inside `isPathIncluded` (extension entry point).  A third,
`isSubpath` (ownership resolver), builds a regex anchored only at the
start.  The regex semantics is embedded as token-list matching.  The
source's `replace` chain escapes only `.` and translates only `*`; any
other regex metacharacter (`+ ? | ( ) [ ] ^ $ \` and braces) reaches
`new RegExp` unescaped and keeps its regex meaning there (or makes the
constructor throw, e.g. for pattern `(`).  The token embedding treats
such characters as literals, so it is faithful exactly for patterns
without those metacharacters; `plainGlobPattern` names that domain, and
every general theorem about the regex matcher carries it as a
hypothesis.
-/

/-- Tokens of the anchored regex that `matchesGlobPattern` builds:
`.` is escaped to a literal, `**` becomes `.*` (any run of characters),
a remaining single `*` becomes `[^/]*` (a run without `/`), every other
character is literal. -/
inductive GlobTok where
  | lit (c : Char)
  | star
  | dstar
deriving DecidableEq

/-- The `replace` chain of `matchesGlobPattern`: escape `.`, turn `**`
into a placeholder, `*` into `[^/]*`, the placeholder into `.*`
(left-to-right, so `**` wins over `*`). -/
def globTokens : List Char → List GlobTok
  | [] => []
  | [c] => if c = '*' then [.star] else [.lit c]
  | c :: d :: rest =>
    if c = '*' then
      if d = '*' then .dstar :: globTokens rest
      else .star :: globTokens (d :: rest)
    else .lit c :: globTokens (d :: rest)

/-- All suffixes of a list: the possible remainders after `.*` consumes
some prefix. -/
def suffixes : List Char → List (List Char)
  | [] => [[]]
  | x :: xs => (x :: xs) :: suffixes xs

/-- The possible remainders after `[^/]*` consumes a (possibly empty) run
of non-`/` characters. -/
def nonSlashSuffixes : List Char → List (List Char)
  | [] => [[]]
  | x :: xs => (x :: xs) :: (if x = '/' then [] else nonSlashSuffixes xs)

/-- Fully anchored regex test (`^ ... $`): a regex `test` succeeds iff
some way of consuming runs matches the whole input. -/
def matchFull : List GlobTok → List Char → Bool
  | [], xs => xs.isEmpty
  | .lit _ :: _, [] => false
  | .lit c :: ts, x :: xs => c == x && matchFull ts xs
  | .star :: ts, xs => (nonSlashSuffixes xs).any fun s => matchFull ts s
  | .dstar :: ts, xs => (suffixes xs).any fun s => matchFull ts s

/-- The regex-translation matcher `matchesGlobPattern(filePath, pattern)`
of the codeowner-tree source file.  Faithful to the source's
`RegExp.test` exactly on `plainGlobPattern` patterns (see the section
comment); general theorems about it are stated under that hypothesis. -/
def matchesGlobPattern (filePath pattern : List Char) : Bool :=
  matchFull (globTokens pattern) filePath

/-- `replace(/\\/g, "/")`: backslash separators normalized to `/`. -/
def normSlashes (l : List Char) : List Char :=
  l.map fun c => if c = '\\' then '/' else c

/-- One iteration of the pattern loop of the manual prefix-check matcher
`isPathIncluded`: Case 1 exact match; Case 2 direct-child match for a bare
pattern; Case 3 `/*` wildcard (direct children of the `*`-stripped base,
which still ends in `/`); Case 4 `/**` wildcard (string prefix of the
`**`-stripped base). -/
def isPathIncludedPattern (relativePath ownerPath : List Char) : Bool :=
  let p := normSlashes relativePath
  let o := normSlashes ownerPath
  (o == p) ||
  ((o ++ ['/']).isPrefixOf p && !((p.drop (o.length + 1)).contains '/')) ||
  (['/', '*'].isSuffixOf o &&
    (let basePath := o.dropLast
     (basePath ++ ['/']).isPrefixOf p && !((p.drop (basePath.length + 1)).contains '/'))) ||
  (['/', '*', '*'].isSuffixOf o &&
    (let basePath := o.take (o.length - 2)
     basePath.isPrefixOf p))

/-- The manual matcher `isPathIncluded` over the selected owner's pattern
list (the source reads the list from module state; it is an argument
here). -/
def isPathIncluded (relativePath : List Char) (ownerPaths : List (List Char)) : Bool :=
  ownerPaths.any fun ownerPath => isPathIncludedPattern relativePath ownerPath

/-- Tokens of the start-anchored regex `^parent` that `isSubpath` builds:
`*` becomes `.*`; `.` is NOT escaped there, so it matches any single
character; everything else is literal. -/
inductive SubTok where
  | lit (c : Char)
  | dot
  | anyRun
deriving DecidableEq

/-- `parentPath.replace(/\*/g, ".*")` read as regex tokens. -/
def subTokens : List Char → List SubTok
  | [] => []
  | '*' :: rest => .anyRun :: subTokens rest
  | '.' :: rest => .dot :: subTokens rest
  | c :: rest => .lit c :: subTokens rest

/-- Regex test anchored only at the start: a match may leave a
remainder. -/
def matchFromStart : List SubTok → List Char → Bool
  | [], _ => true
  | .lit _ :: _, [] => false
  | .lit c :: ts, x :: xs => c == x && matchFromStart ts xs
  | .dot :: _, [] => false
  | .dot :: ts, _ :: xs => matchFromStart ts xs
  | .anyRun :: ts, xs => (suffixes xs).any fun s => matchFromStart ts s

/-- `isSubpath(parentPath, childPath)` from the ownership resolver:
`new RegExp("^" + parentPath.replace(/\*/g, ".*")).test(childPath)`. -/
def isSubpath (parentPath childPath : List Char) : Bool :=
  matchFromStart (subTokens parentPath) childPath

/-- Leading-slash normalization used throughout the source
(`p.startsWith("/") ? p.substring(1) : p`). -/
def stripLeadingSlash (l : List Char) : List Char :=
  if ['/'].isPrefixOf l then l.drop 1 else l

/-- One candidate inspection of `getMostSpecificCodeowner`'s inner loop
(the source's local `normalizedPattern` is written out inline). -/
def gmscStep (path : List Char) (st : Option (List Char) × Int)
    (cand : List Char × List Char) : Option (List Char) × Int :=
  if cand.2.contains '*' then st
  else if path == stripLeadingSlash cand.2 ||
      (stripLeadingSlash cand.2 ++ ['/']).isPrefixOf path then
    if ((stripLeadingSlash cand.2).length : Int) > st.2 then
      (some cand.1, ((stripLeadingSlash cand.2).length : Int))
    else st
  else st

/-- `getMostSpecificCodeowner(path, codeownerPaths)` from the
codeowner-tree source file. -/
def getMostSpecificCodeowner (path : List Char)
    (codeownerPaths : List (List Char × List (List Char))) : Option (List Char) :=
  (codeownerPaths.foldl
    (fun st entry =>
      entry.2.foldl (fun st pattern => gmscStep path st (entry.1, pattern)) st)
    (none, -1)).1

/-- The (owner, pattern) pairs of a codeowner map in iteration order. -/
def ownerPatternPairs (m : List (List Char × List (List Char))) :
    List (List Char × List Char) :=
  m.flatMap fun e => e.2.map fun p => (e.1, p)

/-- A candidate (owner, pattern) pair matches the path: it is
wildcard-free and its normalized pattern equals the path or is an
ancestor directory of it. -/
def isMatchB (path : List Char) (cand : List Char × List Char) : Bool :=
  !cand.2.contains '*' &&
    (path == stripLeadingSlash cand.2 ||
      ((stripLeadingSlash cand.2) ++ ['/']).isPrefixOf path)

theorem gmscStep_of_match (path : List Char) (st : Option (List Char) × Int)
    (c : List Char × List Char) (h : isMatchB path c = true) :
    gmscStep path st c =
      if ((stripLeadingSlash c.2).length : Int) > st.2 then
        (some c.1, ((stripLeadingSlash c.2).length : Int))
      else st := by
  simp only [isMatchB, Bool.and_eq_true, Bool.not_eq_true'] at h
  unfold gmscStep
  rw [if_neg (fun hc => by rw [h.1] at hc; cases hc), if_pos h.2]

theorem gmscStep_of_not_match (path : List Char) (st : Option (List Char) × Int)
    (c : List Char × List Char) (h : isMatchB path c = false) :
    gmscStep path st c = st := by
  simp only [isMatchB, Bool.and_eq_false_iff, Bool.not_eq_false'] at h
  rcases h with h | h
  · unfold gmscStep
    rw [if_pos h]
  · unfold gmscStep
    split
    · rfl
    · rw [if_neg (by simp [h])]

/-- Invariant of the scan: either nothing seen so far matches and the
state is still `(none, -1)`, or the state holds the owner and normalized
length of a matching candidate of maximal normalized length among the
seen ones. -/
def GmscInv (path : List Char) (seen : List (List Char × List Char))
    (st : Option (List Char) × Int) : Prop :=
  (st = (none, -1) ∧ ∀ c ∈ seen, isMatchB path c = false) ∨
  (∃ c ∈ seen, isMatchB path c = true ∧ st.1 = some c.1 ∧
    st.2 = ((stripLeadingSlash c.2).length : Int) ∧
    ∀ d ∈ seen, isMatchB path d = true →
      (stripLeadingSlash d.2).length ≤ (stripLeadingSlash c.2).length)

theorem gmscStep_inv (path : List Char) (seen : List (List Char × List Char))
    (st : Option (List Char) × Int) (c : List Char × List Char)
    (h : GmscInv path seen st) :
    GmscInv path (seen ++ [c]) (gmscStep path st c) := by
  rcases hm : isMatchB path c with hfalse | htrue
  · rw [gmscStep_of_not_match path st c hm]
    rcases h with ⟨hst, hall⟩ | ⟨b, hb, hmb, h1, h2, hmax⟩
    · refine Or.inl ⟨hst, ?_⟩
      intro d hd
      rcases List.mem_append.mp hd with hd | hd
      · exact hall d hd
      · rw [List.mem_singleton.mp hd]; exact hm
    · refine Or.inr ⟨b, List.mem_append.mpr (Or.inl hb), hmb, h1, h2, ?_⟩
      intro d hd hdm
      rcases List.mem_append.mp hd with hd | hd
      · exact hmax d hd hdm
      · rw [List.mem_singleton.mp hd] at hdm
        rw [hdm] at hm; cases hm
  · rw [gmscStep_of_match path st c hm]
    rcases h with ⟨hst, hall⟩ | ⟨b, hb, hmb, h1, h2, hmax⟩
    · rw [hst]
      have hgt : ((stripLeadingSlash c.2).length : Int) > ((-1 : Int)) := by
        have : (0 : Int) ≤ ((stripLeadingSlash c.2).length : Int) := Int.ofNat_nonneg _
        omega
      rw [if_pos hgt]
      refine Or.inr ⟨c, List.mem_append.mpr (Or.inr (List.mem_singleton.mpr rfl)), hm,
        rfl, rfl, ?_⟩
      intro d hd hdm
      rcases List.mem_append.mp hd with hd | hd
      · rw [hall d hd] at hdm; cases hdm
      · rw [List.mem_singleton.mp hd]
    · by_cases hcmp : ((stripLeadingSlash c.2).length : Int) > st.2
      · rw [if_pos hcmp]
        refine Or.inr ⟨c, List.mem_append.mpr (Or.inr (List.mem_singleton.mpr rfl)), hm,
          rfl, rfl, ?_⟩
        intro d hd hdm
        rcases List.mem_append.mp hd with hd | hd
        · have := hmax d hd hdm
          rw [h2] at hcmp
          omega
        · rw [List.mem_singleton.mp hd]
      · rw [if_neg hcmp]
        refine Or.inr ⟨b, List.mem_append.mpr (Or.inl hb), hmb, h1, h2, ?_⟩
        intro d hd hdm
        rcases List.mem_append.mp hd with hd | hd
        · exact hmax d hd hdm
        · rw [List.mem_singleton.mp hd]
          rw [h2] at hcmp
          omega

theorem gmsc_foldl_inv (path : List Char) :
    ∀ (l : List (List Char × List Char)) (seen : List (List Char × List Char))
      (st : Option (List Char) × Int), GmscInv path seen st →
      GmscInv path (seen ++ l) (l.foldl (gmscStep path) st) := by
  intro l
  induction l with
  | nil => intro seen st h; simpa using h
  | cons c rest ih =>
    intro seen st h
    have h1 := gmscStep_inv path seen st c h
    have h2 := ih (seen ++ [c]) _ h1
    simpa [List.append_assoc] using h2

theorem gmsc_foldl_pairs_aux (path : List Char)
    (m : List (List Char × List (List Char))) :
    ∀ init : Option (List Char) × Int,
      m.foldl
        (fun st entry =>
          entry.2.foldl (fun st pattern => gmscStep path st (entry.1, pattern)) st)
        init
        = (m.flatMap fun e => e.2.map fun p => (e.1, p)).foldl (gmscStep path) init := by
  induction m with
  | nil => intro init; rfl
  | cons e rest ih =>
    intro init
    simp only [List.flatMap_cons, List.foldl_append, List.foldl_map, List.foldl_cons, ih]

theorem gmsc_eq_foldl_pairs (path : List Char)
    (m : List (List Char × List (List Char))) :
    getMostSpecificCodeowner path m =
      ((ownerPatternPairs m).foldl (gmscStep path) (none, -1)).1 := by
  unfold getMostSpecificCodeowner ownerPatternPairs
  exact congrArg Prod.fst (gmsc_foldl_pairs_aux path m (none, -1))

/--
C2 (counterexample): the lookup does not always return the owner of the
highest-specificity matching rule: it compares pattern LENGTHS, and a
longer matching pattern can have lower `calculateSpecificity`.  With the
map from rule file `a.b @a` / `a.b/ @b` and path `a.b/`, the owner
returned is `@b` (pattern `a.b/`, length 4, specificity 150) although the
rule of `@a` (pattern `a.b`, specificity 175) also matches the path.
-/
theorem gmsc_not_highest_specificity :
    getMostSpecificCodeowner "a.b/".toList
        [("@a".toList, ["a.b".toList]), ("@b".toList, ["a.b/".toList])] =
      some "@b".toList ∧
    isMatchB "a.b/".toList ("@a".toList, "a.b".toList) = true ∧
    calculateSpecificity "a.b".toList > calculateSpecificity "a.b/".toList := by
  exact ⟨by decide, by decide, by decide⟩

/--
C2 (amended): for every path and codeowner map, when the lookup returns
an owner, that owner holds a wildcard-free pattern whose normalization is
ancestor-or-equal of the path and whose normalized length is maximal
among all matching wildcard-free patterns of all owners (for literal
ancestor patterns of a common path, longest normalized pattern and
highest specificity coincide unless patterns differ only by trailing
slashes — see the counterexample); wildcard-containing rules are excluded
from the lookup.  In particular, for rules `src @teamA`, `src/sub @teamB`
and path `src/sub/file.ts` the result is `@teamB` (see the witness).
-/
theorem gmsc_returns_longest_match (path : List Char)
    (m : List (List Char × List (List Char))) (o : List Char)
    (h : getMostSpecificCodeowner path m = some o) :
    ∃ c ∈ ownerPatternPairs m, c.1 = o ∧ isMatchB path c = true ∧
      ∀ d ∈ ownerPatternPairs m, isMatchB path d = true →
        (stripLeadingSlash d.2).length ≤ (stripLeadingSlash c.2).length := by
  have hinv := gmsc_foldl_inv path (ownerPatternPairs m) [] (none, -1)
    (Or.inl ⟨rfl, by simp⟩)
  rw [gmsc_eq_foldl_pairs] at h
  simp only [List.nil_append] at hinv
  rcases hinv with ⟨hst, _⟩ | ⟨c, hc, hmc, h1, _, hmax⟩
  · rw [hst] at h
    cases h
  · rw [h1] at h
    exact ⟨c, hc, (Option.some_injective _ h).symm ▸ rfl, hmc, hmax⟩

/-- Closed witness for the amended C2 theorem and the override-law
scenario: rules `src @teamA`, `src/sub @teamB`, path `src/sub/file.ts`
resolve to `@teamB`. -/
theorem gmsc_returns_longest_match_witness :
    getMostSpecificCodeowner "src/sub/file.ts".toList
        [("@teamA".toList, ["src".toList]), ("@teamB".toList, ["src/sub".toList])] =
      some "@teamB".toList ∧
    (∃ c ∈ ownerPatternPairs
        [("@teamA".toList, ["src".toList]), ("@teamB".toList, ["src/sub".toList])],
      c.1 = "@teamB".toList ∧ isMatchB "src/sub/file.ts".toList c = true ∧
      ∀ d ∈ ownerPatternPairs
          [("@teamA".toList, ["src".toList]), ("@teamB".toList, ["src/sub".toList])],
        isMatchB "src/sub/file.ts".toList d = true →
          (stripLeadingSlash d.2).length ≤ (stripLeadingSlash c.2).length) := by
  exact ⟨by decide,
    gmsc_returns_longest_match "src/sub/file.ts".toList
      [("@teamA".toList, ["src".toList]), ("@teamB".toList, ["src/sub".toList])]
      "@teamB".toList (by decide)⟩

/-! ### Rule parsing and the ownership resolver

Embedding of the specificity-aware `getCodeownersPaths` and its helpers
(`calculateEffectivePatterns`, `isSubpath`, `calculateSpecificity`) and of
`getListOfUniqueCodeowners`.  The workspace lookup and the
`.github/CODEOWNERS` probe/read are modelled by `CodeownersFile`
(`noFile` = `existsSync` false, `readError` = `readFileSync` throws,
`content` = a successful read); the `showErrorMessage` side channel is
returned explicitly as a message list next to the computed value.
-/

/-- A parsed rule line (`CodeOwnerEntry` in the source). -/
structure CodeOwnerEntry where
  pattern : List Char
  owners : List (List Char)
  specificity : Nat
deriving DecidableEq

/-- The line-parsing loop of the specificity-aware `getCodeownersPaths`:
split on newlines, trim, skip blank lines and lines starting with `#`,
tokenize on whitespace runs, strip one leading `/` from the first token
(the pattern), keep the `@`-prefixed remaining tokens as owners, annotate
with the pattern's specificity. -/
def parseEntries (fileContent : List Char) : List CodeOwnerEntry :=
  (splitOnChar '\n' fileContent).foldl
    (fun entries line =>
      let trimmedLine := trimL line
      if trimmedLine ≠ [] ∧ ¬ (['#'].isPrefixOf trimmedLine) then
        let parts := splitWsRuns trimmedLine
        let pat := stripLeadingSlash (parts.headD [])
        let owners := (parts.drop 1).filter fun part => ['@'].isPrefixOf part
        entries ++ [⟨pat, owners, calculateSpecificity pat⟩]
      else entries)
    []

/-- Stable insertion into a list already sorted by descending
specificity: the new entry goes after every entry with specificity ≥ its
own. -/
def insertBySpecificity (e : CodeOwnerEntry) :
    List CodeOwnerEntry → List CodeOwnerEntry
  | [] => [e]
  | x :: xs =>
    if e.specificity > x.specificity then e :: x :: xs
    else x :: insertBySpecificity e xs

/-- `entries.sort((a, b) => b.specificity - a.specificity)`: JS `sort` is
stable, so it equals stable insertion sort by descending specificity. -/
def sortBySpecificity (l : List CodeOwnerEntry) : List CodeOwnerEntry :=
  l.foldl (fun acc e => insertBySpecificity e acc) []

/-- JS `if (!m[k]) m[k] = []; m[k].push(v)`: a new key is appended at the
end (object insertion order); an existing key's list is extended in
place. -/
def alPush (k v : List Char) :
    List (List Char × List (List Char)) → List (List Char × List (List Char))
  | [] => [(k, [v])]
  | (k', vs) :: rest =>
    if k' = k then (k', vs ++ [v]) :: rest else (k', vs) :: alPush k v rest

/-- JS `m[k] = v`: replace in place, or append a fresh key. -/
def alSet (k : List Char) (v : List (List Char)) :
    List (List Char × List (List Char)) → List (List Char × List (List Char))
  | [] => [(k, v)]
  | (k', v') :: rest =>
    if k' = k then (k', v) :: rest else (k', v') :: alSet k v rest

/-- The naive owner→patterns map: iterate the (sorted) entries, appending
each entry's pattern to every one of its owners' lists. -/
def ownerPatternsMap (entries : List CodeOwnerEntry) :
    List (List Char × List (List Char)) :=
  entries.foldl
    (fun m e => e.owners.foldl (fun m owner => alPush owner e.pattern m) m) []

/-- `calculateEffectivePatterns(ownerPatterns, allEntries)`.  The outer
fold state is `(effectivePatterns, excludedPatterns)`; the inner fold
state is `(excludedPatterns, shouldInclude)`.  The inner guard keeps the
source's `entry.owners.some((o) => ownerPatterns.includes(entry.pattern))`
with its unused binder `o`. -/
def calculateEffectivePatterns (ownerPatterns : List (List Char))
    (allEntries : List CodeOwnerEntry) : List (List Char) :=
  let scan := ownerPatterns.foldl
    (fun (st : List (List Char) × List (List Char)) pat =>
      match allEntries.find? (fun e => e.pattern == pat) with
      | none => st
      | some patternEntry =>
        let inner := allEntries.foldl
          (fun (st2 : List (List Char) × Bool) entry =>
            if entry.pattern == pat ||
                decide (entry.specificity ≤ patternEntry.specificity) then
              st2
            else if isSubpath pat entry.pattern &&
                !(entry.owners.any fun _o => ownerPatterns.contains entry.pattern) then
              (st2.1 ++ [entry.pattern], false)
            else st2)
          (st.2, true)
        (if inner.2 then st.1 ++ [pat] else st.1, inner.1))
    ([], [])
  scan.1.filter fun pat => !(scan.2.any fun excluded => isSubpath pat excluded)

/-- Model of the `.github/CODEOWNERS` probe and read. -/
inductive CodeownersFile where
  | noFile
  | readError (message : List Char)
  | content (text : List Char)

/-- The specificity-aware `getCodeownersPaths`: parse, sort by descending
specificity, build the naive owner→patterns map, then replace each
owner's list by its effective patterns.  First component: the
`showErrorMessage` messages; second: the returned map. -/
def getCodeownersPaths (f : CodeownersFile) :
    List (List Char) × List (List Char × List (List Char)) :=
  match f with
  | .noFile => (["No CODEOWNERS file found.".toList], [])
  | .readError msg => (["Error reading CODEOWNERS file: ".toList ++ msg], [])
  | .content text =>
    let entries := sortBySpecificity (parseEntries text)
    let codeownersMap := (ownerPatternsMap entries).foldl
      (fun cm entry => alSet entry.1 (calculateEffectivePatterns entry.2 entries) cm)
      []
    ([], codeownersMap)

/-- The character class the trailing-punctuation regex keeps: `@`, word
characters (ASCII letters, digits, `_`), slash and dash. -/
def isOwnerWordChar (c : Char) : Bool :=
  c == '@' || c.isAlphanum || c == '_' || c == '/' || c == '-'

/-- The source's `team.replace(regex, "")` where the regex removes the
longest trailing run of characters outside the owner-word class. -/
def stripTrailingPunct (l : List Char) : List Char :=
  (l.reverse.dropWhile fun c => !isOwnerWordChar c).reverse

/-- `getListOfUniqueCodeowners` (the variant with inline-comment
handling): skip blank/comment lines, cut each remaining line at its first
`#`, tokenize, drop the first token (the pattern), strip trailing
punctuation, keep `@`-prefixed tokens, and collect them preserving first
insertion order (the JS `Set`). -/
def getListOfUniqueCodeowners (f : CodeownersFile) :
    List (List Char) × List (List Char) :=
  match f with
  | .noFile => (["No CODEOWNERS file found.".toList], [])
  | .readError msg => (["Error reading CODEOWNERS file: ".toList ++ msg], [])
  | .content text =>
    let teams := (splitOnChar '\n' text).foldl
      (fun teams line =>
        let trimmedLine := trimL line
        if trimmedLine = [] ∨ ['#'].isPrefixOf trimmedLine then teams
        else
          let cut := trimL ((splitOnChar '#' trimmedLine).headD [])
          let lineTeams := ((splitWsRuns cut).drop 1).map
            fun team => trimL (stripTrailingPunct team)
          let lineTeams := lineTeams.filter fun team => ['@'].isPrefixOf team
          lineTeams.foldl (fun ts t => if ts.contains t then ts else ts ++ [t]) teams)
      []
    ([], teams)

/--
C1: the resolver drops an overridden parent pattern entirely.  For the
rule file `docs/ @writers` / `docs/api/ @api-team`, the claim (and the
source's own comments, which say the owner keeps the parent pattern and
only the overriding subtree is excluded) expect `@writers` to keep
`docs/`; the code instead sets `shouldInclude = false` for the parent and
additionally filters out every pattern containing an excluded descendant,
so `@writers` is mapped to the empty list.
-/
theorem writers_parent_pattern_dropped :
    (getCodeownersPaths
        (.content "docs/ @writers\ndocs/api/ @api-team".toList)).2 =
      [("@api-team".toList, ["docs/api/".toList]), ("@writers".toList, [])] := by
  decide

/--
C6: `getCodeownersPaths` does not strip inline comments before
tokenizing, while its sibling `getListOfUniqueCodeowners` does.  On the
line `docs/ @a # @b`, the former records `@b` (a token inside the
comment) as an owner of `docs/`, while the latter reports only `@a`; the
parsed entry shows both tokens kept as owners.
-/
theorem inline_comment_not_stripped :
    parseEntries "docs/ @a # @b".toList =
      [⟨"docs/".toList, ["@a".toList, "@b".toList], 150⟩] ∧
    (getCodeownersPaths (.content "docs/ @a # @b".toList)).2 =
      [("@a".toList, ["docs/".toList]), ("@b".toList, ["docs/".toList])] ∧
    (getListOfUniqueCodeowners (.content "docs/ @a # @b".toList)).2 =
      ["@a".toList] := by
  exact ⟨by decide, by decide, by decide⟩

/-- Result of a successful `fs.statSync`. -/
structure FileStat where
  isFile : Bool
  isDirectory : Bool
deriving DecidableEq

/-- One `fs.readdirSync(fullPath, withFileTypes)` entry. -/
structure DirEntry where
  name : List Char
  isFile : Bool
  isDirectory : Bool
deriving DecidableEq

/-- The file-system capability consumed by the tree builder. -/
structure FileSystem where
  existsSync : List Char → Bool
  statSync : List Char → Option FileStat
  readdirSync : List Char → Option (List DirEntry)

/-- Model of `path.join` for the relative-path joins the source performs
(`join(".", x) = x`; otherwise concatenation with a `/` separator). -/
def pathJoin (a b : List Char) : List Char :=
  if a = [] then b
  else if a = ['.'] then b
  else a ++ '/' :: b

/-- `isFile(fullPath, workspacePath)`: `statSync(join(ws, p)).isFile()`,
with the catch branch returning `false`. -/
def isFile (fs : FileSystem) (fullPath workspacePath : List Char) : Bool :=
  match fs.statSync (pathJoin workspacePath fullPath) with
  | none => false
  | some stats => stats.isFile

/-- `getFilesInDirectory(directoryPath, workspacePath, recursive)`:
missing path, non-directory, or a throwing `statSync`/`readdirSync` give
`[]` (the catch branch); otherwise file entries are collected, recursing
into subdirectories when `recursive`. -/
def getFilesInDirectory (fs : FileSystem) :
    Nat → List Char → List Char → Bool → List (List Char)
  | 0, _, _, _ => []
  | fuel+1, directoryPath, workspacePath, recursive =>
    let fullPath := pathJoin workspacePath directoryPath
    if !fs.existsSync fullPath then []
    else
      match fs.statSync fullPath with
      | none => []
      | some stats =>
        if !stats.isDirectory then []
        else
          match fs.readdirSync fullPath with
          | none => []
          | some entries =>
            entries.foldl
              (fun files entry =>
                let relativePath := pathJoin directoryPath entry.name
                if entry.isFile then files ++ [relativePath]
                else if recursive && entry.isDirectory then
                  files ++ getFilesInDirectory fs fuel relativePath workspacePath recursive
                else files)
              []

/--
C9: file-system probe failures never abort the build and are contained
per call: when `statSync` throws on a path, `isFile` classifies it as
not-a-file (returns `false`); when `readdirSync` throws on a directory,
`getFilesInDirectory` contributes the empty list.  Both functions are
total, so the catch-all error branch of the tree build is unreachable
from probe failures.
-/
theorem probe_failures_are_contained (fs : FileSystem)
    (fullPath workspacePath directoryPath : List Char) (recursive : Bool) (fuel : Nat)
    (hstat : fs.statSync (pathJoin workspacePath fullPath) = none)
    (hdir : fs.readdirSync (pathJoin workspacePath directoryPath) = none) :
    isFile fs fullPath workspacePath = false ∧
    getFilesInDirectory fs fuel directoryPath workspacePath recursive = [] := by
  constructor
  · unfold isFile
    rw [hstat]
  · cases fuel with
    | zero => rfl
    | succ n =>
      unfold getFilesInDirectory
      rcases hex : fs.existsSync (pathJoin workspacePath directoryPath)
      · simp [hex]
      · rcases hst : fs.statSync (pathJoin workspacePath directoryPath) with _ | stats
        · simp [hex, hst]
        · rcases hd : stats.isDirectory
          · simp [hex, hst, hd]
          · simp [hex, hst, hd, hdir]

/-- Closed witness for C9: a file system whose `statSync` and
`readdirSync` always throw still yields `false` / `[]`. -/
theorem probe_failures_are_contained_witness :
    (FileSystem.mk (fun _ => true) (fun _ => none) (fun _ => none)).statSync
        (pathJoin "ws".toList "a.ts".toList) = none ∧
    isFile (FileSystem.mk (fun _ => true) (fun _ => none) (fun _ => none))
        "a.ts".toList "ws".toList = false ∧
    getFilesInDirectory (FileSystem.mk (fun _ => true) (fun _ => none) (fun _ => none))
        5 "src".toList "ws".toList true = [] := by
  have h := probe_failures_are_contained
    (FileSystem.mk (fun _ => true) (fun _ => none) (fun _ => none))
    "a.ts".toList "ws".toList "src".toList true 5 rfl rfl
  exact ⟨rfl, h.1, h.2⟩

/-- `normalizedPath.includes("**")`. -/
def hasDoubleStar : List Char → Bool
  | [] => false
  | '*' :: '*' :: _ => true
  | _ :: rest => hasDoubleStar rest

/-- `normalizedPath.lastIndexOf("/")`, as an `Option` instead of `-1`. -/
def lastSlashIndex (l : List Char) : Option Nat :=
  match l.reverse.findIdx? (fun c => c == '/') with
  | none => none
  | some j => some (l.length - 1 - j)

/-- `[...new Set(list)]`: deduplication keeping first occurrences. -/
def dedupFirst (l : List (List Char)) : List (List Char) :=
  l.foldl (fun acc x => if acc.contains x then acc else acc ++ [x]) []

/-- `expandGlobPatterns(paths, workspacePath)`: wildcard-free paths pass
through (leading slash stripped); a wildcard pattern is expanded by
listing its directory prefix (recursively when it contains `**`,
directory `.` when it has no `/`), keeping the listed files the glob
matcher accepts, and retaining the non-empty directory prefix itself;
the result is deduplicated. -/
def expandGlobPatterns (fs : FileSystem) (fuel : Nat)
    (paths : List (List Char)) (workspacePath : List Char) : List (List Char) :=
  dedupFirst (paths.foldl
    (fun expandedPaths pathPattern =>
      let normalizedPath := stripLeadingSlash pathPattern
      if normalizedPath.contains '*' then
        let dirPath :=
          match lastSlashIndex normalizedPath with
          | none => []
          | some i => normalizedPath.take i
        let shouldRecurse := hasDoubleStar normalizedPath
        let baseDir := if dirPath = [] then ['.'] else dirPath
        let files := getFilesInDirectory fs fuel baseDir workspacePath shouldRecurse
        let expandedPaths := expandedPaths ++
          files.filter fun file => matchesGlobPattern file normalizedPath
        if dirPath ≠ [] then expandedPaths ++ [dirPath] else expandedPaths
      else expandedPaths ++ [normalizedPath])
    [])

/-- The hierarchical presentation node built by `buildPathTree`. -/
inductive PathNode where
  | mk (label : List Char) (fullPath : List Char)
      (isDirectlyOwned : Bool) (isFile : Bool) (children : List PathNode)

def PathNode.label : PathNode → List Char
  | .mk l _ _ _ _ => l

def PathNode.fullPath : PathNode → List Char
  | .mk _ f _ _ _ => f

def PathNode.isDirectlyOwned : PathNode → Bool
  | .mk _ _ d _ _ => d

def PathNode.isFile : PathNode → Bool
  | .mk _ _ _ f _ => f

def PathNode.children : PathNode → List PathNode
  | .mk _ _ _ _ c => c

/-- Lexicographic character-code comparison, the model of
`a.label.localeCompare(b.label) < 0` for ASCII labels. -/
def lexLt : List Char → List Char → Bool
  | [], [] => false
  | [], _ :: _ => true
  | _ :: _, [] => false
  | x :: xs, y :: ys => decide (x < y) || (x == y && lexLt xs ys)

/-- The sort comparator of `buildPathTree` returns a negative value
exactly when the first node is a directory and the second a file, or both
are of the same kind and the first label compares lexicographically
smaller. -/
def nodeBefore (a b : PathNode) : Bool :=
  (!a.isFile && b.isFile) || (a.isFile == b.isFile && lexLt a.label b.label)

/-- Stable insertion: a node goes before the first element that the JS
comparator would order strictly after it. -/
def insertNodeSorted (x : PathNode) : List PathNode → List PathNode
  | [] => [x]
  | y :: ys => if nodeBefore x y then x :: y :: ys else y :: insertNodeSorted x ys

/-- `children.sort(comparator)` — JS `sort` is stable, so it equals
stable insertion sort with the same ordering. -/
def sortNodeList (l : List PathNode) : List PathNode :=
  l.foldl (fun acc x => insertNodeSorted x acc) []

/-- The mutable node record held in `nodeMap`, with children represented
by their `fullPath` keys (object identity in the source is `fullPath`
identity: the map never holds two nodes for one path). -/
structure NodeInfo where
  label : List Char
  isDirectlyOwned : Bool
  isFile : Bool
  childKeys : List (List Char)

/-- The builder's mutable state: `nodeMap` (insertion-ordered) and the
keys of `rootNodes`. -/
structure BuildState where
  nodes : List (List Char × NodeInfo)
  roots : List (List Char)

def alGetNode (k : List Char) : List (List Char × NodeInfo) → Option NodeInfo
  | [] => none
  | (k', v) :: rest => if k' = k then some v else alGetNode k rest

def alUpdateNode (k : List Char) (f : NodeInfo → NodeInfo) :
    List (List Char × NodeInfo) → List (List Char × NodeInfo)
  | [] => []
  | (k', v) :: rest =>
    if k' = k then (k', f v) :: rest else (k', v) :: alUpdateNode k f rest

/-- The `segments.reduce` walk of `buildPathTree`: create or update one
node per cumulative path prefix.  A segment whose cumulative path
resolves to a different codeowner is skipped (no node is created or
linked), but the walk continues with it as parent path, exactly like the
source's early `return currentPath`. -/
def addSegments (fs : FileSystem)
    (codeownerPaths : List (List Char × List (List Char)))
    (currentCodeowner : List Char) (isPathFile : Bool) :
    List Char → List (List Char) → BuildState → BuildState
  | _, [], st => st
  | parentPath, segment :: rest, st =>
    let currentPath := if parentPath = [] then segment else parentPath ++ '/' :: segment
    let isFileSegment := rest.isEmpty && isPathFile
    if !parentPath.isEmpty &&
        (match getMostSpecificCodeowner currentPath codeownerPaths with
         | some ow => ow != currentCodeowner
         | none => false) then
      addSegments fs codeownerPaths currentCodeowner isPathFile currentPath rest st
    else
      let st' :=
        match alGetNode currentPath st.nodes with
        | none =>
          let newNode : NodeInfo := ⟨segment, rest.isEmpty, isFileSegment, []⟩
          let nodes := st.nodes ++ [(currentPath, newNode)]
          if !parentPath.isEmpty then
            { nodes := alUpdateNode parentPath
                (fun p => { p with childKeys := p.childKeys ++ [currentPath] }) nodes,
              roots := st.roots }
          else { nodes := nodes, roots := st.roots ++ [currentPath] }
        | some _ =>
          if rest.isEmpty then
            { nodes := alUpdateNode currentPath
                (fun p =>
                  { p with
                    isDirectlyOwned := true
                    isFile := if isFileSegment then true else p.isFile }) st.nodes,
              roots := st.roots }
          else st
      addSegments fs codeownerPaths currentCodeowner isPathFile currentPath rest st'

/-- Turn the flat keyed state back into the nested `PathNode` tree the
source's object references form, sorting every child list; the fuel is
the node count, which bounds the tree depth since child keys strictly
extend their parent's key. -/
def materializeNode (nodes : List (List Char × NodeInfo)) :
    Nat → List Char → Option PathNode
  | 0, _ => none
  | fuel+1, key =>
    match alGetNode key nodes with
    | none => none
    | some info =>
      some (PathNode.mk info.label key info.isDirectlyOwned info.isFile
        (sortNodeList (info.childKeys.filterMap fun k => materializeNode nodes fuel k)))

/-- `codeownerPaths[codeowner] || []`. -/
def alGetD (k : List Char) (m : List (List Char × List (List Char))) :
    List (List Char) :=
  match m.find? (fun e => e.1 == k) with
  | none => []
  | some e => e.2

/-- `buildPathTree(paths, workspacePath, codeownerPaths, currentCodeowner)`:
expand globs; for each wildcard-free expanded path that is an existing
directory, append its recursive file listing (`forEach` does not visit
elements appended during iteration, so only the original snapshot is
scanned); deduplicate; drop paths owned by a different codeowner; build
the keyed node tree segment by segment; finally sort children and roots
directories-first then lexicographically. -/
def buildPathTree (fs : FileSystem) (fuel : Nat) (paths : List (List Char))
    (workspacePath : List Char)
    (codeownerPaths : List (List Char × List (List Char)))
    (currentCodeowner : List Char) : List PathNode :=
  let expandedPaths := expandGlobPatterns fs fuel paths workspacePath
  let dirExtra := expandedPaths.foldl
    (fun acc pathStr =>
      if pathStr.contains '*' then acc
      else
        let normalizedPath := stripLeadingSlash pathStr
        let fullPath := pathJoin workspacePath normalizedPath
        if fs.existsSync fullPath then
          match fs.statSync fullPath with
          | none => acc
          | some stats =>
            if stats.isDirectory then
              acc ++ getFilesInDirectory fs fuel normalizedPath workspacePath true
            else acc
        else acc)
    []
  let uniquePaths := dedupFirst (expandedPaths ++ dirExtra)
  let st := uniquePaths.foldl
    (fun st pathStr =>
      if pathStr.contains '*' then st
      else
        let cleanPath := stripLeadingSlash pathStr
        if cleanPath = [] then st
        else if (match getMostSpecificCodeowner cleanPath codeownerPaths with
                 | some ow => ow != currentCodeowner
                 | none => false) then st
        else
          let segments := (splitOnChar '/' cleanPath).filter fun s => !s.isEmpty
          let isPathFile := isFile fs cleanPath workspacePath
          addSegments fs codeownerPaths currentCodeowner isPathFile [] segments st)
    ⟨[], []⟩
  sortNodeList (st.roots.filterMap (materializeNode st.nodes st.nodes.length))

/--
C8: the resolve-then-build pipeline is deterministic: two runs over
identical rule-file state and identical file-system state produce the
same owner map (same owners, same pattern lists, same order) and the
same tree (same node order).  This holds because every effect the source
performs (file read, probes, listings, UI messages) is a function of the
explicit `CodeownersFile` / `FileSystem` state threaded through the
model, and the computation is a pure function of that state.
-/
theorem pipeline_deterministic (fs fs' : FileSystem) (f f' : CodeownersFile)
    (fuel : Nat) (workspacePath currentCodeowner : List Char)
    (hfs : fs = fs') (hf : f = f') :
    getCodeownersPaths f = getCodeownersPaths f' ∧
    buildPathTree fs fuel (alGetD currentCodeowner (getCodeownersPaths f).2)
        workspacePath (getCodeownersPaths f).2 currentCodeowner =
      buildPathTree fs' fuel (alGetD currentCodeowner (getCodeownersPaths f').2)
        workspacePath (getCodeownersPaths f').2 currentCodeowner := by
  subst hfs
  subst hf
  exact ⟨rfl, rfl⟩

/-- Closed witness for C8 at a concrete rule file and file system. -/
theorem pipeline_deterministic_witness :
    getCodeownersPaths (.content "src @a\nsrc/sub @b".toList) =
      getCodeownersPaths (.content "src @a\nsrc/sub @b".toList) ∧
    buildPathTree (FileSystem.mk (fun _ => false) (fun _ => none) (fun _ => none)) 4
        (alGetD "@a".toList
          (getCodeownersPaths (.content "src @a\nsrc/sub @b".toList)).2)
        "ws".toList
        (getCodeownersPaths (.content "src @a\nsrc/sub @b".toList)).2 "@a".toList =
      buildPathTree (FileSystem.mk (fun _ => false) (fun _ => none) (fun _ => none)) 4
        (alGetD "@a".toList
          (getCodeownersPaths (.content "src @a\nsrc/sub @b".toList)).2)
        "ws".toList
        (getCodeownersPaths (.content "src @a\nsrc/sub @b".toList)).2 "@a".toList := by
  exact pipeline_deterministic
    (FileSystem.mk (fun _ => false) (fun _ => none) (fun _ => none))
    (FileSystem.mk (fun _ => false) (fun _ => none) (fun _ => none))
    (.content "src @a\nsrc/sub @b".toList) (.content "src @a\nsrc/sub @b".toList)
    4 "ws".toList "@a".toList rfl rfl

end Codeowners
